import Mathlib

/-!
Verification of the multi-query RAG retrieval pipeline (`src/main.ipynb`).

The notebook's pure pipeline stages are embedded as Lean functions:

* `clean_text`     — cell 7: `text.replace("\n", " ").strip()`
* `format_doc`     — cell 8: clean every passage, join with a blank line
* `expand_query`   — cell 10: one generation call, split reply on newlines,
                     strip each line, drop empties
* `retrieve_documents` — cell 12: fan out similarity search over the expanded
                     queries, deduplicate by raw `page_content`, truncate to 2
* `rag_chain` / `answer_question` — cells 16/18: the composed chain

External services (the chat model and the vector store) are modelled as
function parameters: the chat model maps a list of (role, content) messages to
a completion string, the vector store maps a query and a fan-out width to a
passage list.  Python strings are modelled as Lean `String`; `str.strip`,
`str.split("\n")` and the single-character `str.replace` are embedded as
executable functions over the underlying character list.
-/

/-- Embedding of a LangChain `Document`: a passage with its page content and
source metadata.  Deduplication in the notebook keys on `page_content` only. -/
structure Document where
  page_content : String
  metadata : String
deriving DecidableEq, Repr

/-- Python `str.strip()`: drop whitespace characters from both ends. -/
def py_strip (s : String) : String :=
  ⟨((s.data.dropWhile Char.isWhitespace).reverse.dropWhile Char.isWhitespace).reverse⟩

/-- Character-list splitter underlying Python `str.split(sep)` for a
one-character separator: `split_char sep cs` cuts `cs` at every `sep`. -/
def split_char (sep : Char) : List Char → List (List Char)
  | [] => [[]]
  | c :: rest =>
    let r := split_char sep rest
    if c = sep then
      [] :: r
    else
      match r with
      | [] => [[c]]
      | h :: t => (c :: h) :: t

/-- Python `s.split("\n")`. -/
def py_split_newlines (s : String) : List String :=
  (split_char '\n' s.data).map (fun cs => ⟨cs⟩)

/-- Python `text.replace("\n", " ")` (single-character pattern and
replacement, hence a character-wise map). -/
def replace_newlines (s : String) : String :=
  ⟨s.data.map (fun c => if c = '\n' then ' ' else c)⟩

/-- Cell 7: `clean_text(text) = text.replace("\n", " ").strip()`. -/
def clean_text (text : String) : String :=
  py_strip (replace_newlines text)

/-- Cell 8: `format_doc(docs)` — clean every passage's content into an
accumulator list, then join with the blank-line separator `"\n\n"`. -/
def format_doc (docs : List Document) : String :=
  let cleaned_docs := docs.foldl (fun acc doc => acc ++ [clean_text doc.page_content]) []
  String.intercalate ("\n\n") cleaned_docs

/-- Cell 10, parsing step: `[q.strip() for q in result.split("\n") if q.strip()]`. -/
def expand_query_parse (result : String) : List String :=
  (py_split_newlines result).foldr
    (fun q acc => if py_strip q ≠ ("") then py_strip q :: acc else acc) []

/-- Cell 10, prompt template: `"Преформулирай следния въпрос в 5 разнообразни
и семантично различни заявки:\n\n{question}"`. -/
def expansion_prompt (question : String) : String :=
  ("Преформулирай следния въпрос в 5 разнообразни и семантично различни заявки:\n\n") ++ question

/-- Cell 10: `expand_query(question, llm_model)` — build the reformulation
prompt as a single human message, invoke the model once, parse the reply. -/
def expand_query (llm_model : List (String × String) → String) (question : String) :
    List String :=
  expand_query_parse (llm_model [(("human"), expansion_prompt question)])

/-- Cell 12, deduplication loop with its `seen` set (modelled as the list of
contents already seen): keep a passage iff its raw `page_content` is new. -/
def dedup_loop (seen : List String) : List Document → List Document
  | [] => []
  | doc :: rest =>
    if doc.page_content ∈ seen then
      dedup_loop seen rest
    else
      doc :: dedup_loop (doc.page_content :: seen) rest

/-- Cell 12, deduplication starting from an empty `seen` set. -/
def dedup_docs (docs : List Document) : List Document :=
  dedup_loop [] docs

/-- The merge/dedup/truncate step of cell 12 on the per-candidate-query
passage lists (the spec's ResultAggregator): concatenate in candidate-query
order, deduplicate by raw content, truncate to the first 2 entries. -/
def aggregate_docs (lists : List (List Document)) : List Document :=
  (dedup_docs lists.flatten).take 2

/-- Cell 12: `retrieve_documents(question, k)` — expand the question, fan out
`similarity_search` per candidate query, extend one accumulator list,
deduplicate by raw `page_content`, return `unique_docs[:2]`. -/
def retrieve_documents (llm_model : List (String × String) → String)
    (similarity_search : String → Nat → List Document)
    (question : String) (k : Nat) : List Document :=
  let expanded_questions := expand_query llm_model question
  let all_docs := expanded_questions.foldl (fun acc q => acc ++ similarity_search q k) []
  (dedup_docs all_docs).take 2

/-- Cell 14: the grounded-answer prompt — a system message interpolating the
context and carrying the refusal instruction, plus the user question. -/
def final_prompt (context question : String) : List (String × String) :=
  [(("system"),
    ("Отговори на въпроса САМО на базата на тази информация:\n\n") ++ context ++
      ("\n\n") ++
      ("Ако отговорът не е намерен, кажи \x27не мога да отговоря на базата на информацията от документа.\x27")),
   (("user"), question)]

/-- Cell 18: `rag_chain` — context = `format_doc(retrieve_documents(question))`
(with the default fan-out width 2), then the grounded prompt, then one chat
model call whose string output is the answer. -/
def rag_chain (llm_model : List (String × String) → String)
    (similarity_search : String → Nat → List Document)
    (question : String) : String :=
  let context := format_doc (retrieve_documents llm_model similarity_search question 2)
  llm_model (final_prompt context question)

/-- Cell 16: `answer_question(question) = rag_chain.invoke(question)`. -/
def answer_question (llm_model : List (String × String) → String)
    (similarity_search : String → Nat → List Document)
    (question : String) : String :=
  rag_chain llm_model similarity_search question

/-! ### Helper lemmas about the deduplication loop -/

/-- The Boolean test "this passage has raw content `x`". -/
def hasContent (x : String) (d : Document) : Bool :=
  d.page_content == x

theorem dedup_loop_sublist (seen : List String) (l : List Document) :
    (dedup_loop seen l).Sublist l := by
  induction l generalizing seen with
  | nil => simp [dedup_loop]
  | cons d rest ih =>
    by_cases h : d.page_content ∈ seen
    · simpa [dedup_loop, h] using (ih seen).cons d
    · simpa [dedup_loop, h] using (ih (d.page_content :: seen)).cons₂ d

theorem mem_content_dedup_loop (seen : List String) (l : List Document) (x : String) :
    x ∈ (dedup_loop seen l).map Document.page_content ↔
      x ∈ l.map Document.page_content ∧ x ∉ seen := by
  induction l generalizing seen with
  | nil => simp [dedup_loop]
  | cons d rest ih =>
    by_cases h : d.page_content ∈ seen <;>
      by_cases hxc : x = d.page_content <;>
        simp_all [dedup_loop]

theorem nodup_content_dedup_loop (seen : List String) (l : List Document) :
    ((dedup_loop seen l).map Document.page_content).Nodup := by
  induction l generalizing seen with
  | nil => simp [dedup_loop]
  | cons d rest ih =>
    by_cases h : d.page_content ∈ seen
    · simpa [dedup_loop, h] using ih seen
    · simp only [dedup_loop, if_neg h, List.map_cons, List.nodup_cons]
      refine ⟨?_, ih (d.page_content :: seen)⟩
      intro hmem
      rw [mem_content_dedup_loop] at hmem
      exact hmem.2 (List.mem_cons_self _ _)

theorem countP_dedup_loop_of_seen (seen : List String) (l : List Document) (x : String)
    (hx : x ∈ seen) :
    (dedup_loop seen l).countP (hasContent x) = 0 := by
  rw [List.countP_eq_zero]
  intro d hd hp
  have hmem : d.page_content ∈ (dedup_loop seen l).map Document.page_content :=
    List.mem_map_of_mem _ hd
  rw [mem_content_dedup_loop] at hmem
  have hxc : d.page_content = x := by simpa [hasContent] using hp
  exact hmem.2 (hxc ▸ hx)

theorem countP_dedup_loop (seen : List String) (l : List Document) (x : String)
    (hx : x ∉ seen) :
    (dedup_loop seen l).countP (hasContent x) =
      if x ∈ l.map Document.page_content then 1 else 0 := by
  induction l generalizing seen with
  | nil => simp [dedup_loop]
  | cons d rest ih =>
    by_cases h : d.page_content ∈ seen
    · have hne : x ≠ d.page_content := fun he => hx (he ▸ h)
      rw [show dedup_loop seen (d :: rest) = dedup_loop seen rest from if_pos h,
        ih seen hx]
      simp [List.map_cons, hne, Ne.symm hne]
    · by_cases he : d.page_content = x
      · rw [show dedup_loop seen (d :: rest) =
            d :: dedup_loop (d.page_content :: seen) rest from if_neg h,
          List.countP_cons]
        have h0 : (dedup_loop (d.page_content :: seen) rest).countP (hasContent x) = 0 :=
          countP_dedup_loop_of_seen _ _ _ (by simp [he])
        rw [h0]
        simp [hasContent, he, List.map_cons]
      · rw [show dedup_loop seen (d :: rest) =
            d :: dedup_loop (d.page_content :: seen) rest from if_neg h,
          List.countP_cons]
        have hx2 : x ∉ d.page_content :: seen := by
          simp only [List.mem_cons]
          rintro (h1 | h2)
          · exact he h1.symm
          · exact hx h2
        rw [ih (d.page_content :: seen) hx2]
        have hne : ¬ x = d.page_content := fun h1 => he h1.symm
        simp [hasContent, he, hne, List.map_cons]

theorem find?_dedup_loop (seen : List String) (l : List Document) (x : String)
    (hx : x ∉ seen) :
    (dedup_loop seen l).find? (hasContent x) = l.find? (hasContent x) := by
  induction l generalizing seen with
  | nil => simp [dedup_loop]
  | cons d rest ih =>
    by_cases h : d.page_content ∈ seen
    · have hne : hasContent x d = false := by
        simp only [hasContent, beq_eq_false_iff_ne, ne_eq]
        exact fun he => hx (he ▸ h)
      rw [show dedup_loop seen (d :: rest) = dedup_loop seen rest from if_pos h,
        ih seen hx, List.find?_cons, hne]
    · by_cases he : d.page_content = x
      · have ht : hasContent x d = true := by simp [hasContent, he]
        rw [show dedup_loop seen (d :: rest) =
            d :: dedup_loop (d.page_content :: seen) rest from if_neg h]
        rw [List.find?_cons, List.find?_cons, ht]
      · have hf : hasContent x d = false := by simp [hasContent, he]
        have hx2 : x ∉ d.page_content :: seen := by
          simp only [List.mem_cons]
          rintro (h1 | h2)
          · exact he h1.symm
          · exact hx h2
        rw [show dedup_loop seen (d :: rest) =
            d :: dedup_loop (d.page_content :: seen) rest from if_neg h]
        rw [List.find?_cons, List.find?_cons, hf]
        exact ih (d.page_content :: seen) hx2

theorem dedup_loop_eq_self (seen : List String) (l : List Document)
    (hnd : (l.map Document.page_content).Nodup)
    (hdisj : ∀ x ∈ l.map Document.page_content, x ∉ seen) :
    dedup_loop seen l = l := by
  induction l generalizing seen with
  | nil => simp [dedup_loop]
  | cons d rest ih =>
    have h : d.page_content ∉ seen := hdisj _ (by simp)
    rw [show dedup_loop seen (d :: rest) =
        d :: dedup_loop (d.page_content :: seen) rest from if_neg h]
    congr 1
    have hnd' : d.page_content ∉ rest.map Document.page_content ∧
        (rest.map Document.page_content).Nodup := by
      rw [List.map_cons, List.nodup_cons] at hnd
      exact hnd
    rcases hnd' with ⟨hhead, htail⟩
    refine ih (d.page_content :: seen) htail ?_
    intro x hxl
    simp only [List.mem_cons]
    rintro (h1 | h2)
    · exact hhead (h1 ▸ hxl)
    · exact hdisj x (by rw [List.map_cons]; exact List.mem_cons_of_mem _ hxl) h2

theorem toFinset_content_dedup_loop (seen : List String) (l : List Document) :
    ((dedup_loop seen l).map Document.page_content).toFinset =
      (l.map Document.page_content).toFinset \ seen.toFinset := by
  ext x
  simp only [List.mem_toFinset, Finset.mem_sdiff]
  exact mem_content_dedup_loop seen l x

/-- The deduplicated list has exactly one entry per distinct raw content. -/
theorem dedup_docs_length (l : List Document) :
    (dedup_docs l).length = (l.map Document.page_content).toFinset.card := by
  have h1 := nodup_content_dedup_loop [] l
  have h2 := toFinset_content_dedup_loop [] l
  calc (dedup_docs l).length
      = ((dedup_loop [] l).map Document.page_content).length := by
        simp [dedup_docs]
    _ = ((dedup_loop [] l).map Document.page_content).toFinset.card :=
        (List.toFinset_card_of_nodup h1).symm
    _ = (l.map Document.page_content).toFinset.card := by
        rw [h2]
        simp

theorem foldl_append_eq_flatten {α β : Type} (f : α → List β) (l : List α) (init : List β) :
    l.foldl (fun acc q => acc ++ f q) init = init ++ (l.map f).flatten := by
  induction l generalizing init with
  | nil => simp
  | cons a t ih => simp [List.foldl_cons, ih]

theorem foldl_append_singleton {α β : Type} (g : α → β) (l : List α) (init : List β) :
    l.foldl (fun acc d => acc ++ [g d]) init = init ++ l.map g := by
  induction l generalizing init with
  | nil => simp
  | cons a t ih => simp [List.foldl_cons, ih]

theorem dedup_docs_take_nodup (l : List Document) :
    (((dedup_docs l).take 2).map Document.page_content).Nodup := by
  rw [List.map_take]
  exact List.Nodup.sublist (List.take_sublist _ _) (nodup_content_dedup_loop [] l)

/-- C4: the aggregated context never exceeds the configured limit (2 in the
notebook), and when fewer than 2 distinct raw contents exist the whole
deduplicated list is returned unchanged — no padding, no further truncation. -/
theorem aggregate_docs_bounded (lists : List (List Document)) :
    (aggregate_docs lists).length ≤ 2 ∧
      ((lists.flatten.map Document.page_content).toFinset.card < 2 →
        aggregate_docs lists = dedup_docs lists.flatten) := by
  constructor
  · simp only [aggregate_docs, List.length_take]
    exact min_le_left _ _
  · intro h
    have hlen : (dedup_docs lists.flatten).length < 2 := by
      rw [dedup_docs_length]
      exact h
    simpa [aggregate_docs] using List.take_of_length_le (Nat.le_of_lt hlen)

/-- Witness for C4 at a concrete input with a single distinct content. -/
theorem aggregate_docs_bounded_witness :
    (aggregate_docs [[⟨("a"), ("m")⟩], [⟨("a"), ("n")⟩]]).length ≤ 2 ∧
      (([[⟨("a"), ("m")⟩], [⟨("a"), ("n")⟩]] :
          List (List Document)).flatten.map Document.page_content).toFinset.card < 2 ∧
      aggregate_docs [[⟨("a"), ("m")⟩], [⟨("a"), ("n")⟩]] =
        dedup_docs ([[⟨("a"), ("m")⟩], [⟨("a"), ("n")⟩]] :
          List (List Document)).flatten := by
  refine ⟨(aggregate_docs_bounded _).1, by decide, (aggregate_docs_bounded _).2 (by decide)⟩

/-- C5: the merge-and-deduplicate step is idempotent — feeding the aggregated
output back in as the sole passage list returns it unchanged. -/
theorem aggregate_docs_idempotent (lists : List (List Document)) :
    aggregate_docs [aggregate_docs lists] = aggregate_docs lists := by
  have h1 : ([aggregate_docs lists] : List (List Document)).flatten = aggregate_docs lists := by
    simp
  rw [show aggregate_docs [aggregate_docs lists] =
      (dedup_docs ([aggregate_docs lists] : List (List Document)).flatten).take 2 from rfl, h1]
  have h2 : dedup_docs (aggregate_docs lists) = aggregate_docs lists :=
    dedup_loop_eq_self [] _ (dedup_docs_take_nodup lists.flatten) (by simp)
  rw [h2]
  show ((dedup_docs lists.flatten).take 2).take 2 = (dedup_docs lists.flatten).take 2
  rw [List.take_take, min_self]

theorem find?_append_left {α : Type} (p : α → Bool) (l₁ l₂ : List α) (a : α)
    (h : l₁.find? p = some a) : (l₁ ++ l₂).find? p = some a := by
  rw [List.find?_append, h]
  rfl

theorem find?_append_right {α : Type} (p : α → Bool) (l₁ l₂ : List α)
    (h : l₁.find? p = none) : (l₁ ++ l₂).find? p = l₂.find? p := by
  rw [List.find?_append, h, Option.none_or]

/-- C1, counterexample: two passages whose contents agree after trimming but
differ as raw strings do NOT collapse — both survive the aggregation. -/
theorem dedup_trim_key_counterexample :
    py_strip (" chairs") = py_strip ("chairs") ∧
      aggregate_docs [[⟨(" chairs"), ("m1")⟩], [⟨("chairs"), ("m2")⟩]] =
        [⟨(" chairs"), ("m1")⟩, ⟨("chairs"), ("m2")⟩] := by
  constructor <;> rfl

/-- C1, amended: the identity key is the raw, untrimmed `page_content`.  Two
passages with equal raw content collapse to one entry in the deduplicated
merge, namely the first occurrence in candidate-query order. -/
theorem dedup_raw_key (lists : List (List Document)) (d1 d2 : Document)
    (h1 : d1 ∈ lists.flatten) (_h2 : d2 ∈ lists.flatten)
    (_heq : d1.page_content = d2.page_content) :
    (dedup_docs lists.flatten).countP (hasContent d1.page_content) = 1 ∧
      (dedup_docs lists.flatten).find? (hasContent d1.page_content) =
        lists.flatten.find? (hasContent d1.page_content) := by
  have hx : d1.page_content ∈ lists.flatten.map Document.page_content :=
    List.mem_map_of_mem _ h1
  constructor
  · show (dedup_loop [] lists.flatten).countP (hasContent d1.page_content) = 1
    rw [countP_dedup_loop [] _ _ (by simp), if_pos hx]
  · exact find?_dedup_loop [] _ _ (by simp)

/-- Witness for C1's amended theorem at a concrete duplicated input. -/
theorem dedup_raw_key_witness :
    ((⟨("x"), ("m")⟩ : Document) ∈
        ([[⟨("x"), ("m")⟩], [⟨("x"), ("n")⟩]] : List (List Document)).flatten) ∧
      ((⟨("x"), ("n")⟩ : Document) ∈
        ([[⟨("x"), ("m")⟩], [⟨("x"), ("n")⟩]] : List (List Document)).flatten) ∧
      (Document.page_content ⟨("x"), ("m")⟩ = Document.page_content ⟨("x"), ("n")⟩) ∧
      ((dedup_docs ([[⟨("x"), ("m")⟩], [⟨("x"), ("n")⟩]] :
          List (List Document)).flatten).countP
            (hasContent (Document.page_content ⟨("x"), ("m")⟩)) = 1 ∧
        (dedup_docs ([[⟨("x"), ("m")⟩], [⟨("x"), ("n")⟩]] :
            List (List Document)).flatten).find?
              (hasContent (Document.page_content ⟨("x"), ("m")⟩)) =
          ([[⟨("x"), ("m")⟩], [⟨("x"), ("n")⟩]] :
            List (List Document)).flatten.find?
              (hasContent (Document.page_content ⟨("x"), ("m")⟩))) :=
  ⟨by decide, by decide, rfl,
    dedup_raw_key [[⟨("x"), ("m")⟩], [⟨("x"), ("n")⟩]] ⟨("x"), ("m")⟩ ⟨("x"), ("n")⟩
      (by decide) (by decide) rfl⟩

/-- C3: when an earlier candidate-query list A and a later list B share a
passage content first surfaced in A, the deduplicated merge keeps exactly one
entry with that content, it is A's first occurrence (never B's copy), and the
merge never repositions entries (it is a sublist of the concatenation). -/
theorem dedup_earlier_list_wins (lists : List (List Document))
    (iA iB : Nat) (hA : iA < lists.length) (hB : iB < lists.length) (_hAB : iA < iB)
    (d d' : Document) (hdA : d ∈ lists.get ⟨iA, hA⟩) (_hdB : d' ∈ lists.get ⟨iB, hB⟩)
    (_heq : d'.page_content = d.page_content)
    (hfirst : ∀ e ∈ (lists.take iA).flatten, e.page_content ≠ d.page_content) :
    (dedup_docs lists.flatten).countP (hasContent d.page_content) = 1 ∧
      (dedup_docs lists.flatten).find? (hasContent d.page_content) =
        (lists.get ⟨iA, hA⟩).find? (hasContent d.page_content) ∧
      (dedup_docs lists.flatten).Sublist lists.flatten ∧
      (aggregate_docs lists).countP (hasContent d.page_content) ≤ 1 := by
  have hdmem : d ∈ lists.flatten :=
    List.mem_flatten.2 ⟨lists.get ⟨iA, hA⟩, List.get_mem lists iA hA, hdA⟩
  have hx : d.page_content ∈ lists.flatten.map Document.page_content :=
    List.mem_map_of_mem _ hdmem
  have hone : (dedup_docs lists.flatten).countP (hasContent d.page_content) = 1 := by
    show (dedup_loop [] lists.flatten).countP (hasContent d.page_content) = 1
    rw [countP_dedup_loop [] _ _ (by simp), if_pos hx]
  refine ⟨hone, ?_, dedup_loop_sublist [] _, ?_⟩
  case refine_2 =>
    calc (aggregate_docs lists).countP (hasContent d.page_content)
        ≤ (dedup_docs lists.flatten).countP (hasContent d.page_content) :=
          List.Sublist.countP_le _ (List.take_sublist 2 _)
      _ = 1 := hone
  · have hsplit : lists.flatten =
        (lists.take iA).flatten ++ (lists.get ⟨iA, hA⟩ :: lists.drop (iA + 1)).flatten := by
      conv_lhs => rw [← List.take_append_drop iA lists]
      rw [List.flatten_append, List.drop_eq_getElem_cons hA, List.get_eq_getElem]
    have hnone : ((lists.take iA).flatten).find? (hasContent d.page_content) = none := by
      rw [List.find?_eq_none]
      intro e he
      simp only [hasContent, beq_eq_false_iff_ne, ne_eq]
      simpa using hfirst e he
    have hsome : ∃ r, (lists.get ⟨iA, hA⟩).find? (hasContent d.page_content) = some r := by
      have : ((lists.get ⟨iA, hA⟩).find? (hasContent d.page_content)).isSome = true := by
        rw [List.find?_isSome]
        exact ⟨d, hdA, by simp [hasContent]⟩
      exact Option.isSome_iff_exists.1 this
    obtain ⟨r, hr⟩ := hsome
    calc (dedup_docs lists.flatten).find? (hasContent d.page_content)
        = lists.flatten.find? (hasContent d.page_content) :=
          find?_dedup_loop [] _ _ (by simp)
      _ = ((lists.take iA).flatten ++
            (lists.get ⟨iA, hA⟩ :: lists.drop (iA + 1)).flatten).find?
              (hasContent d.page_content) := by rw [← hsplit]
      _ = ((lists.get ⟨iA, hA⟩ :: lists.drop (iA + 1)).flatten).find?
            (hasContent d.page_content) := find?_append_right _ _ _ hnone
      _ = ((lists.get ⟨iA, hA⟩ ++ (lists.drop (iA + 1)).flatten)).find?
            (hasContent d.page_content) := by rw [List.flatten_cons]
      _ = some r := find?_append_left _ _ _ r hr
      _ = (lists.get ⟨iA, hA⟩).find? (hasContent d.page_content) := hr.symm

/-- Witness for C3: lists A = [p (from A)] and B = [p (from B)] sharing
content "p"; the merge keeps A's copy only. -/
theorem dedup_earlier_list_wins_witness :
    ((0 : Nat) < ([[⟨("p"), ("a")⟩], [⟨("p"), ("b")⟩]] : List (List Document)).length) ∧
      ((1 : Nat) < ([[⟨("p"), ("a")⟩], [⟨("p"), ("b")⟩]] : List (List Document)).length) ∧
      ((dedup_docs ([[⟨("p"), ("a")⟩], [⟨("p"), ("b")⟩]] :
          List (List Document)).flatten).countP
            (hasContent (Document.page_content ⟨("p"), ("a")⟩)) = 1 ∧
        (dedup_docs ([[⟨("p"), ("a")⟩], [⟨("p"), ("b")⟩]] :
            List (List Document)).flatten).find?
              (hasContent (Document.page_content ⟨("p"), ("a")⟩)) =
          (([[⟨("p"), ("a")⟩], [⟨("p"), ("b")⟩]] :
              List (List Document)).get ⟨0, by decide⟩).find?
                (hasContent (Document.page_content ⟨("p"), ("a")⟩)) ∧
        (dedup_docs ([[⟨("p"), ("a")⟩], [⟨("p"), ("b")⟩]] :
            List (List Document)).flatten).Sublist
          ([[⟨("p"), ("a")⟩], [⟨("p"), ("b")⟩]] : List (List Document)).flatten ∧
        (aggregate_docs [[⟨("p"), ("a")⟩], [⟨("p"), ("b")⟩]]).countP
          (hasContent (Document.page_content ⟨("p"), ("a")⟩)) ≤ 1) :=
  ⟨by decide, by decide,
    dedup_earlier_list_wins [[⟨("p"), ("a")⟩], [⟨("p"), ("b")⟩]] 0 1
      (by decide) (by decide) (by decide) ⟨("p"), ("a")⟩ ⟨("p"), ("b")⟩
      (by decide) (by decide) rfl (by simp)⟩

/-- C9: deduplication keys on the raw, untrimmed content, so two passages
differing only in trailing whitespace both survive the aggregation, and after
the per-passage trim in the formatter the final context block contains the
same normalized passage text twice. -/
theorem raw_key_duplicate_reaches_context :
    aggregate_docs [[⟨("ergonomics "), ("pg1")⟩], [⟨("ergonomics"), ("pg2")⟩]] =
        [⟨("ergonomics "), ("pg1")⟩, ⟨("ergonomics"), ("pg2")⟩] ∧
      format_doc (aggregate_docs [[⟨("ergonomics "), ("pg1")⟩],
          [⟨("ergonomics"), ("pg2")⟩]]) =
        ("ergonomics\n\nergonomics") := by
  constructor <;> rfl

/-- C2, code behavior at the failing input: a generation reply of whitespace
only parses to zero candidate queries, and the pipeline then proceeds with
zero candidates — retrieval returns nothing even though the vector store
would return a passage for every query, i.e. no similarity search runs and
the original question is never used as a fallback candidate. -/
theorem retrieve_documents_empty_candidates :
    expand_query_parse ("\n \n") = [] ∧
      retrieve_documents (fun _ => ("\n \n")) (fun _ _ => [⟨("passage"), ("meta")⟩])
        ("original question") 2 = [] := by
  constructor <;> rfl

/-! ### QueryExpander parsing and the formatter -/

/-- Modelled from the spec (§4.1): the parsing rule for the generation reply,
stated the spec's way — split the reply on line boundaries, trim each line,
drop the empty lines, keep reply order. -/
def query_expander_spec (reply : String) : List String :=
  ((py_split_newlines reply).map py_strip).filter (fun q => q != (""))

theorem foldr_strip_filter (l : List String) :
    l.foldr (fun q acc => if py_strip q ≠ ("") then py_strip q :: acc else acc) [] =
      (l.map py_strip).filter (fun q => q != ("")) := by
  induction l with
  | nil => rfl
  | cons a t ih =>
    simp only [List.foldr_cons, List.map_cons, List.filter_cons]
    rw [ih]
    by_cases h : py_strip a = ("") <;> simp [h]

/-- C6: the reply parser equals the spec's split/trim/drop-empties rule, so
every candidate is a nonempty trimmed line of the reply, in reply order. -/
theorem expand_query_parse_eq_spec (reply : String) :
    expand_query_parse reply = query_expander_spec reply := by
  unfold expand_query_parse query_expander_spec
  exact foldr_strip_filter _

/-- Modelled from the spec (§4.4): ContextFormatter — replace each embedded
line break by a single space, trim, join with a blank-line separator. -/
def context_formatter_spec (docs : List Document) : String :=
  String.intercalate ("\n\n")
    (docs.map (fun d => py_strip (replace_newlines d.page_content)))

/-- C7: the formatter normalizes each passage (line breaks to spaces, trim)
and joins with a blank line, and returns the empty string on no passages. -/
theorem format_doc_eq_spec :
    (∀ docs : List Document, format_doc docs = context_formatter_spec docs) ∧
      format_doc [] = ("") := by
  constructor
  · intro docs
    unfold format_doc context_formatter_spec
    rw [foldl_append_singleton]
    simp [clean_text]
  · rfl

theorem newline_not_mem_replace_newlines (s : String) :
    '\n' ∉ (replace_newlines s).data := by
  intro h
  have h2 : '\n' ∈ s.data.map (fun c => if c = '\n' then ' ' else c) := h
  rw [List.mem_map] at h2
  obtain ⟨c, _, hc⟩ := h2
  by_cases h3 : c = '\n' <;> simp [h3] at hc

theorem py_strip_data_sublist (s : String) : (py_strip s).data.Sublist s.data := by
  have h1 : (s.data.dropWhile Char.isWhitespace).Sublist s.data :=
    List.dropWhile_sublist _
  have h2 : ((s.data.dropWhile Char.isWhitespace).reverse.dropWhile
      Char.isWhitespace).Sublist (s.data.dropWhile Char.isWhitespace).reverse :=
    List.dropWhile_sublist _
  have h3 := h2.reverse
  rw [List.reverse_reverse] at h3
  exact h3.trans h1

theorem clean_text_no_newline (s : String) : '\n' ∉ (clean_text s).data := by
  intro h
  exact newline_not_mem_replace_newlines s ((py_strip_data_sublist _).subset h)

theorem sep_not_mem_split_char (sep : Char) (cs : List Char) :
    ∀ p ∈ split_char sep cs, sep ∉ p := by
  induction cs with
  | nil =>
    intro p hp
    rw [show split_char sep [] = [[]] from rfl] at hp
    simp only [List.mem_singleton] at hp
    simp [hp]
  | cons c rest ih =>
    intro p hp
    by_cases h : c = sep
    · rw [show split_char sep (c :: rest) = [] :: split_char sep rest from by
          simp [split_char, h]] at hp
      rcases List.mem_cons.1 hp with h1 | h1
      · simp [h1]
      · exact ih p h1
    · cases hr : split_char sep rest with
      | nil =>
        rw [show split_char sep (c :: rest) = [[c]] from by
            simp [split_char, h, hr]] at hp
        simp only [List.mem_singleton] at hp
        rw [hp]
        intro hm
        rcases List.mem_cons.1 hm with h2 | h2
        · exact h h2.symm
        · simp at h2
      | cons hd tl =>
        rw [show split_char sep (c :: rest) = (c :: hd) :: tl from by
            simp [split_char, h, hr]] at hp
        rcases List.mem_cons.1 hp with h1 | h1
        · rw [h1]
          intro hm
          rcases List.mem_cons.1 hm with h2 | h2
          · exact h h2.symm
          · exact ih hd (by rw [hr]; exact List.mem_cons_self _ _) h2
        · exact ih p (by rw [hr]; exact List.mem_cons_of_mem _ h1)

theorem newline_not_mem_split_piece (reply piece : String)
    (hp : piece ∈ py_split_newlines reply) : '\n' ∉ piece.data := by
  unfold py_split_newlines at hp
  rw [List.mem_map] at hp
  obtain ⟨cs, hcs, hpi⟩ := hp
  have h := sep_not_mem_split_char '\n' reply.data cs hcs
  rw [← hpi]
  exact h

theorem expand_query_parse_shape (reply q : String)
    (hq : q ∈ expand_query_parse reply) :
    ∃ piece ∈ py_split_newlines reply, q = py_strip piece := by
  unfold expand_query_parse at hq
  rw [foldr_strip_filter] at hq
  obtain ⟨hmap, _⟩ := List.mem_filter.1 hq
  rw [List.mem_map] at hmap
  obtain ⟨piece, hpiece, hq2⟩ := hmap
  exact ⟨piece, hpiece, hq2.symm⟩

/-- C10: normalized passages contain no newline character, and neither does
any candidate query produced by the reply parser — so the blank-line
separator boundaries in the context block never fall inside a passage. -/
theorem no_newline_invariant :
    (∀ s : String, '\n' ∉ (clean_text s).data) ∧
      (∀ reply q : String, q ∈ expand_query_parse reply → '\n' ∉ q.data) := by
  constructor
  · exact clean_text_no_newline
  · intro reply q hq
    obtain ⟨piece, hpiece, hq2⟩ := expand_query_parse_shape reply q hq
    have h1 := newline_not_mem_split_piece reply piece hpiece
    intro h
    exact h1 ((py_strip_data_sublist piece).subset (hq2 ▸ h))

/-- Witness for C10 at concrete strings. -/
theorem no_newline_invariant_witness :
    ('\n' ∉ (clean_text ("a\nb")).data) ∧
      (("q") ∈ expand_query_parse (" q \nrest") ∧
        '\n' ∉ (("q") : String).data) :=
  ⟨no_newline_invariant.1 ("a\nb"),
    by decide,
    no_newline_invariant.2 (" q \nrest") ("q") (by decide)⟩

/-! ### The orchestrator as a four-stage composition -/

/-- Modelled from the spec (§4.6): the Pipeline Orchestrator as a four-stage
straight-line composition, abstract in its stages — AnswerGenerator applied
to the question and to ContextFormatter of ResultAggregator of the
CandidateRetriever fan-out over QueryExpander's candidates. -/
def pipeline_composition (qe : String → List String) (cr : String → List Document)
    (ra : List (List Document) → List Document) (cf : List Document → String)
    (ag : String → String → String) (question : String) : String :=
  ag question (cf (ra ((qe question).map cr)))

/-- C8: `answer_question` equals the four-stage composition with the
implemented stages plugged in (expansion, per-candidate retrieval at the
default width 2, merge/dedup/truncate, formatting, grounded generation); the
embedding is purely functional, so no state is carried between calls. -/
theorem answer_question_eq_composition
    (llm_model : List (String × String) → String)
    (similarity_search : String → Nat → List Document)
    (question : String) :
    answer_question llm_model similarity_search question =
      pipeline_composition (expand_query llm_model)
        (fun q => similarity_search q 2) aggregate_docs format_doc
        (fun q ctx => llm_model (final_prompt ctx q)) question := by
  simp only [answer_question, rag_chain, retrieve_documents, pipeline_composition,
    aggregate_docs]
  rw [foldl_append_eq_flatten]
  simp
